/- Verification of the merge_excel repository: a shallow embedding of
   src/services/excelService.ts (naturalSort, getGroupKey, mergeExcelFiles)
   and of the batch runner handleMergeAll in src/App.tsx, with theorems
   checking the specification's claims against it.

   Modelling conventions:
   * A JavaScript string is embedded as its list of characters (`JStr`);
     Lean's packed `String` primitives do not reduce inside the kernel, so
     all string operations are defined on `List Char`.
   * A decoded cell value (the `any` produced by XLSX.utils.sheet_to_json
     with defval "") is a string, a number or a boolean (`Cell`); numbers are
     embedded as integers, which covers every numeric cell the claims
     exercise (in particular the falsy number 0).  Sheet data is the row
     matrix `List Row` that sheet_to_json returns.
   * The pass-through sheet テンプレ is never inspected, only moved whole, so
     a workbook carries it as an opaque tag (`Option Nat`).
   * `String.prototype.localeCompare(_, undefined, {numeric: true,
     sensitivity: 'base'})` is a platform builtin, not repository code; it is
     embedded by its documented contract: split into digit runs and letter
     runs, digit runs compare by numeric value, the rest case-insensitively,
     lexicographically over the runs (`naturalKey`).
   * Array.prototype.sort with a consistent comparator returns the unique
     stable order; it is embedded as `List.insertionSort`, which is stable.
   * `await file.arrayBuffer()` / XLSX.read can throw; a file is a name plus
     `Option Workbook`, `none` standing for a file whose decode throws. -/
import Mathlib

set_option maxHeartbeats 1000000

namespace MergeExcel

/-- A JavaScript string, as its list of characters. -/
abbrev JStr := List Char

/-- The whitespace class of String.prototype.trim (the part exercised here). -/
def jsWhitespace (c : Char) : Bool :=
  c == ' ' || c == '\t' || c == '\n' || c == '\r' || c == '\x0b' || c == '\x0c' ||
    c == '\u00a0' || c == '\ufeff'

/-- String.prototype.trim. -/
def trimL (s : JStr) : JStr :=
  ((s.dropWhile jsWhitespace).reverse.dropWhile jsWhitespace).reverse

/-- A decoded cell value: sheet_to_json with defval "" yields strings,
numbers or booleans in each row array. -/
inductive Cell where
  | str (s : JStr)
  | num (n : Int)
  | boolv (b : Bool)
deriving DecidableEq

/-- JavaScript truthiness of a cell value ("" and 0 and false are falsy). -/
def Cell.truthy : Cell → Bool
  | .str s => !s.isEmpty
  | .num n => !(n == 0)
  | .boolv b => b

/-- JavaScript String(v) on a cell value. -/
def Cell.jsString : Cell → JStr
  | .str s => s
  | .num n => (toString n).data
  | .boolv b => if b then "true".data else "false".data

/-- One row of a decoded sheet. -/
abbrev Row := List Cell

/-- row.some(cell => cell !== ""): the all-empty-row test of mergeExcelFiles. -/
def rowHasContent (row : Row) : Bool :=
  row.any (fun c => !(c == Cell.str []))

/-- String(row[idx] || "").trim(): the designated-column identifier read.
row[idx] out of bounds is undefined, hence falsy. -/
def qValAt (idx : Nat) (row : Row) : JStr :=
  match row.get? idx with
  | none => []
  | some c => if c.truthy then trimL c.jsString else []

/-- The Map<string, any[][]> of mergeExcelFiles, as an association list in
key-insertion order; Map.get(k)!.push(row) appends at the end of k's list. -/
abbrev Groups := List (JStr × List Row)

/-- groups.has(k) ? groups.get(k)!.push(row) : groups.set(k, [row]). -/
def addToGroup : Groups → JStr → Row → Groups
  | [], k, row => [(k, [row])]
  | (k2, rs) :: rest, k, row =>
    if k2 = k then (k2, rs ++ [row]) :: rest else (k2, rs) :: addToGroup rest k row

/-- The block-collector loop body of mergeExcelFiles (lines 41-50 / 61-69):
skip all-empty rows, forward-fill the running identifier from the designated
column, push each surviving row onto the running identifier's list. -/
def collectRows (idx : Nat) : List Row → JStr → Groups → Groups
  | [], _, gs => gs
  | row :: rest, cur, gs =>
    if rowHasContent row = false then collectRows idx rest cur gs
    else
      let q := qValAt idx row
      let cur2 := if q = [] then cur else q
      let gs2 := if cur2 = [] then gs else addToGroup gs cur2 row
      collectRows idx rest cur2 gs2

/-- A collation key token: a digit run by value, or a case-folded letter run;
tokens are ordered with digit runs before letter runs (⊕ₗ). -/
abbrev NatTok := Nat ⊕ₗ JStr

/-- Numeric value of an ASCII digit. -/
def digitVal (c : Char) : Nat := c.toNat - 48

/-- One step of the tokenizer behind naturalSort: extend the current digit or
letter run, or close it and open the other kind. -/
def natKeyStep : List NatTok × Option NatTok → Char → List NatTok × Option NatTok
  | (acc, cur), c =>
    if c.isDigit then
      match cur with
      | some t =>
        match ofLex t with
        | .inl n => (acc, some (toLex (.inl (n * 10 + digitVal c))))
        | .inr _ => (acc ++ [t], some (toLex (.inl (digitVal c))))
      | none => (acc, some (toLex (.inl (digitVal c))))
    else
      match cur with
      | some t =>
        match ofLex t with
        | .inl _ => (acc ++ [t], some (toLex (.inr [c.toLower])))
        | .inr s2 => (acc, some (toLex (.inr (s2 ++ [c.toLower]))))
      | none => (acc, some (toLex (.inr [c.toLower])))

/-- The collation key of a string under numeric, base-sensitivity collation:
the list of its runs, compared lexicographically. -/
def naturalKey (s : JStr) : List NatTok :=
  match s.foldl natKeyStep ([], none) with
  | (acc, none) => acc
  | (acc, some t) => acc ++ [t]

/-- naturalSort (excelService.ts lines 7-9): a.localeCompare(b, undefined,
{numeric: true, sensitivity: 'base'}) ≤ 0, i.e. a's collation key is not
greater than b's. -/
def naturalLe (a b : JStr) : Prop := naturalKey a ≤ naturalKey b

instance : DecidableRel naturalLe :=
  fun a b => inferInstanceAs (Decidable (naturalKey a ≤ naturalKey b))

instance : IsTotal JStr naturalLe :=
  ⟨fun a b => le_total (naturalKey a) (naturalKey b)⟩

instance : IsTrans JStr naturalLe :=
  ⟨fun _ _ _ h h2 => le_trans h h2⟩

/-- The key list of a groups map, in insertion order (Map keys iterate in
insertion order). -/
def keysOf (gs : Groups) : List JStr := gs.map Prod.fst

/-- groups.get(k): the row list collected for identifier k ([] when absent). -/
def groupRows (gs : Groups) (k : JStr) : List Row :=
  match gs.find? (fun p => decide (p.1 = k)) with
  | some p => p.2
  | none => []

/-- Array.from(groups.keys()).sort(naturalSort): the stable sort of the key
list by the natural comparator. -/
def sortedKeys (gs : Groups) : List JStr :=
  List.insertionSort naturalLe (keysOf gs)

/-- [headers, ...rows of each identifier in sorted order] (lines 79-89). -/
def finalData (headers : Row) (gs : Groups) : List Row :=
  headers :: (sortedKeys gs).flatMap (fun k => groupRows gs k)

/-- A decoded workbook: the two governed sheets as row matrices when present,
and the pass-through テンプレ sheet as an opaque tag. -/
structure Workbook where
  kosei : Option (List Row)
  naiyo : Option (List Row)
  tempre : Option Nat
deriving DecidableEq

/-- The accumulator state of mergeExcelFiles across its file loop. -/
structure MergeState where
  koseiGroups : Groups
  naiyoGroups : Groups
  koseiHeaders : Row
  naiyoHeaders : Row
  masterTempre : Option Nat
deriving DecidableEq

def initState : MergeState := ⟨[], [], [], [], none⟩

/-- The 構成-sheet block of the file loop: capture the header row while none
is captured, collect the data rows (designated column E, index 4). -/
def processKosei (st : MergeState) (wb : Workbook) : MergeState :=
  match wb.kosei with
  | none => st
  | some data =>
    if data.isEmpty then st
    else
      { st with
          koseiHeaders := if st.koseiHeaders.isEmpty then data.headD [] else st.koseiHeaders
          koseiGroups := collectRows 4 (data.drop 1) [] st.koseiGroups }

/-- The 内容-sheet block of the file loop (designated column A, index 0). -/
def processNaiyo (st : MergeState) (wb : Workbook) : MergeState :=
  match wb.naiyo with
  | none => st
  | some data =>
    if data.isEmpty then st
    else
      { st with
          naiyoHeaders := if st.naiyoHeaders.isEmpty then data.headD [] else st.naiyoHeaders
          naiyoGroups := collectRows 0 (data.drop 1) [] st.naiyoGroups }

/-- if (!masterTempre && workbook.Sheets[TEMPRE]) masterTempre = that sheet. -/
def processTempre (st : MergeState) (wb : Workbook) : MergeState :=
  match st.masterTempre, wb.tempre with
  | none, some t => { st with masterTempre := some t }
  | _, _ => st

/-- One iteration of the file loop of mergeExcelFiles. -/
def processFile (st : MergeState) (wb : Workbook) : MergeState :=
  processTempre (processNaiyo (processKosei st wb) wb) wb

def runFiles (wbs : List Workbook) : MergeState := wbs.foldl processFile initState

/-- The output workbook of mergeExcelFiles: the two merged governed sheets
and the kept pass-through sheet. -/
@[ext]
structure MergedOut where
  kosei : List Row
  naiyo : List Row
  tempre : Option Nat
deriving DecidableEq

/-- mergeExcelFiles (excelService.ts lines 22-98) on already-decoded files. -/
def mergeExcelFiles (wbs : List Workbook) : MergedOut :=
  let st := runFiles wbs
  { kosei := finalData st.koseiHeaders st.koseiGroups
    naiyo := finalData st.naiyoHeaders st.naiyoGroups
    tempre := st.masterTempre }

/-- The character class of an unflagged JavaScript regex dot: any character
except a line terminator. -/
def jsDotClass (c : Char) : Bool :=
  !(c == '\n' || c == '\r' || c == '\u2028' || c == '\u2029')

/-- Split a string at its last dot: some (before, after) when a dot exists. -/
def splitAtLastDot : JStr → Option (JStr × JStr)
  | [] => none
  | c :: cs =>
    match splitAtLastDot cs with
    | some (b, a) => some (c :: b, a)
    | none => if c = '.' then some ([], cs) else none

/-- filename.replace(new RegExp for a dot then [^/.]+ at the end, ""): drops
from the last dot when at least one character follows it, none of them / or
a dot (after the last dot no dot can occur, so only the last dot can match). -/
def stripExt (s : JStr) : JStr :=
  match splitAtLastDot s with
  | none => s
  | some (b, a) =>
    if !a.isEmpty && a.all (fun c => !(c == '/' || c == '.')) then b else s

/-- The suffix test of getGroupKey: some pre when the string is pre, then an
underscore or hyphen, then one or more digits running to the end.  Such a
separator must be the last non-digit character, so the decomposition is
unique; the recursion prefers the deepest separator, as the regex's greedy
prefix group does. -/
def suffixSplit : JStr → Option JStr
  | [] => none
  | c :: cs =>
    match suffixSplit cs with
    | some pre => some (c :: pre)
    | none =>
      if (c == '_' || c == '-') && !cs.isEmpty && cs.all Char.isDigit then some []
      else none

/-- getGroupKey (excelService.ts lines 14-20): strip the extension, then
match the name against the anchored pattern prefix, underscore-or-hyphen,
digits; the prefix group is a run of regex dots, so it must be free of line
terminators for the pattern to match. -/
def getGroupKey (filename : JStr) : JStr :=
  let nameWithoutExt := stripExt filename
  match suffixSplit nameWithoutExt with
  | some pre => if pre.all jsDotClass then pre else nameWithoutExt
  | none => nameWithoutExt

/-- An uploaded file as handleMergeAll sees it: its name, and its decoded
workbook, none when file.arrayBuffer() / XLSX.read throws on it. -/
structure JsFile where
  name : JStr
  content : Option Workbook
deriving DecidableEq

/-- Decode every file of a group in order; the first throwing file aborts
the group (the thrown error propagates out of mergeExcelFiles). -/
def decodeAll : List JsFile → Except Unit (List Workbook)
  | [] => .ok []
  | f :: fs =>
    match f.content with
    | none => .error ()
    | some wb => (decodeAll fs).map (fun ws => wb :: ws)

/-- mergeExcelFiles as called on raw files: decode, then merge. -/
def mergeExcelFilesE (fs : List JsFile) : Except Unit MergedOut :=
  (decodeAll fs).map mergeExcelFiles

/-- First-occurrence deduplication (Object.keys on a string-keyed record
iterates in insertion order). -/
def dedupAux : List JStr → List JStr → List JStr
  | [], acc => acc.reverse
  | k :: ks, acc => if acc.contains k then dedupAux ks acc else dedupAux ks (k :: acc)

/-- The group keys of a batch, in first-occurrence order (groupedFiles in
App.tsx, keyed by getGroupKey of each file name). -/
def groupedKeys (fs : List JsFile) : List JStr :=
  dedupAux (fs.map (fun f => getGroupKey f.name)) []

/-- The files of one merge group, in upload order. -/
def filesForKey (fs : List JsFile) (k : JStr) : List JsFile :=
  fs.filter (fun f => getGroupKey f.name == k)

/-- One entry of the results list of handleMergeAll (the object URL stands
for the produced output workbook). -/
structure MergeResult where
  groupName : JStr
  output : MergedOut
  fileCount : Nat
deriving DecidableEq

/-- The for-loop of handleMergeAll over the group keys: each group is merged
in turn inside one try block, so the first thrown error aborts the loop. -/
def runGroups (fs : List JsFile) : List JStr → Except Unit (List MergeResult)
  | [] => .ok []
  | k :: ks =>
    match mergeExcelFilesE (filesForKey fs k) with
    | .error e => .error e
    | .ok out => (runGroups fs ks).map (fun rs => ⟨k, out, (filesForKey fs k).length⟩ :: rs)

/-- What handleMergeAll leaves in the status: nothing at all (the guard
`if (files.length === 0) return` fires), the results of every group, or the
catch-block state: error message set and results emptied. -/
inductive BatchOutcome where
  | noAction
  | success (results : List MergeResult)
  | failure
deriving DecidableEq

/-- handleMergeAll (App.tsx lines 62-110) on the uploaded files. -/
def handleMergeAll (fs : List JsFile) : BatchOutcome :=
  if fs.isEmpty then .noAction
  else
    match runGroups fs (groupedKeys fs) with
    | .ok rs => .success rs
    | .error _ => .failure

/-- The data rows of a file's 構成 sheet (empty when the sheet is absent or
empty; data.slice(1) elsewhere). -/
def koseiRows (wb : Workbook) : List Row := (wb.kosei.getD []).drop 1

/-- The data rows of a file's 内容 sheet. -/
def naiyoRows (wb : Workbook) : List Row := (wb.naiyo.getD []).drop 1

/-- The header row (data[0]) of a file's 構成 sheet, [] when none. -/
def koseiHead (wb : Workbook) : Row := (wb.kosei.getD []).headD []

/-- The header row of a file's 内容 sheet, [] when none. -/
def naiyoHead (wb : Workbook) : Row := (wb.naiyo.getD []).headD []

/-- Folding the collector over a list of data-row matrices: the shape of each
groups accumulator of the file loop. -/
def collectMany (idx : Nat) (datas : List (List Row)) (gs : Groups) : Groups :=
  datas.foldl (fun g d => collectRows idx d [] g) gs

/-- The Block Collector run on one sheet's data rows alone. -/
def fileGroups (idx : Nat) (d : List Row) : Groups := collectRows idx d [] []

/-- The Block Collector of one file's 構成 sheet on its own. -/
def fileKoseiGroups (wb : Workbook) : Groups := fileGroups 4 (koseiRows wb)

/-- The Block Collector of one file's 内容 sheet on its own. -/
def fileNaiyoGroups (wb : Workbook) : Groups := fileGroups 0 (naiyoRows wb)

/-! ### Claim-side definitions (written from the specification's wording) -/

/-- The Block Collector as claim C2 words it: skip all-empty rows without
change; a non-empty designated cell (as coerced to a trimmed string) names
the block and takes the row; an empty designated cell forward-fills the row
into the running block, or drops it when no block is running yet. -/
def specCollect (idx : Nat) : List Row → JStr → Groups → Groups
  | [], _, gs => gs
  | row :: rest, cur, gs =>
    if row.all (fun c => c == Cell.str []) then specCollect idx rest cur gs
    else if qValAt idx row ≠ [] then
      specCollect idx rest (qValAt idx row) (addToGroup gs (qValAt idx row) row)
    else if cur ≠ [] then specCollect idx rest cur (addToGroup gs cur row)
    else specCollect idx rest cur gs

/-- Claim C4's group-key function exactly as stated: strip the extension,
then strip one trailing underscore-or-hyphen-plus-digits suffix whenever the
name ends in one, with no further condition on the prefix. -/
def specGroupKey (filename : JStr) : JStr :=
  match suffixSplit (stripExt filename) with
  | some pre => pre
  | none => stripExt filename

/-- A file supplies the 構成 sheet when that sheet is present with data. -/
def suppliesKosei (wb : Workbook) : Bool := !(wb.kosei.getD []).isEmpty

/-- A file supplies the 内容 sheet when that sheet is present with data. -/
def suppliesNaiyo (wb : Workbook) : Bool := !(wb.naiyo.getD []).isEmpty

/-- Re-reading a merge output as a decoded workbook (the idempotence claim
feeds the produced workbook back into the merge). -/
def toWorkbook (out : MergedOut) : Workbook :=
  { kosei := some out.kosei, naiyo := some out.naiyo, tempre := out.tempre }

/-- Invariant of a collected block: non-empty identifier, non-empty row
list, every row has content and reads, at the designated column, as this
identifier or as the empty one, and the first row names the identifier. -/
def GoodEntry (idx : Nat) (p : JStr × List Row) : Prop :=
  p.1 ≠ [] ∧ p.2 ≠ [] ∧
    (∀ r ∈ p.2, rowHasContent r = true ∧ (qValAt idx r = p.1 ∨ qValAt idx r = [])) ∧
    qValAt idx (p.2.headD []) = p.1

/-- Example 構成-sheet row: x-filled, column 4 holds the given cell text. -/
def sheetARow (v : JStr) : Row :=
  [.str "x".data, .str "x".data, .str "x".data, .str "x".data, .str v]

/-- Example header row. -/
def exHeader : Row := [.str "h".data]

/-- Example workbook whose 構成 sheet has identifiers Q2 then Q1. -/
def exWb1 : Workbook :=
  ⟨some [exHeader, sheetARow "Q2".data, sheetARow "Q1".data], none, none⟩

/-- Example workbook whose 構成 sheet has identifiers Q1 then Q3. -/
def exWb2 : Workbook :=
  ⟨some [exHeader, sheetARow "Q1".data, sheetARow "Q3".data], none, none⟩

/-- Example decodable workbook for a sibling group. -/
def exWbB : Workbook := ⟨some [exHeader], none, none⟩

/-! ### Association-list lemmas for the groups map -/

theorem keysOf_nil : keysOf [] = [] := rfl

theorem keysOf_cons (p : JStr × List Row) (gs : Groups) :
    keysOf (p :: gs) = p.1 :: keysOf gs := rfl

theorem keysOf_append (gs gs2 : Groups) :
    keysOf (gs ++ gs2) = keysOf gs ++ keysOf gs2 := by
  simp [keysOf]

theorem addToGroup_not_mem (gs : Groups) (k : JStr) (r : Row) (h : k ∉ keysOf gs) :
    addToGroup gs k r = gs ++ [(k, [r])] := by
  induction gs with
  | nil => rfl
  | cons p rest ih =>
    obtain ⟨k2, rs⟩ := p
    simp only [keysOf, List.map_cons, List.mem_cons, not_or] at h
    simp only [addToGroup]
    rw [if_neg (fun e => h.1 e.symm), ih (by simpa [keysOf] using h.2)]
    simp

theorem keysOf_addToGroup_mem (gs : Groups) (k : JStr) (r : Row) (h : k ∈ keysOf gs) :
    keysOf (addToGroup gs k r) = keysOf gs := by
  induction gs with
  | nil => simp [keysOf] at h
  | cons p rest ih =>
    obtain ⟨k2, rs⟩ := p
    simp only [keysOf, List.map_cons, List.mem_cons] at h ih ⊢
    by_cases hk : k2 = k
    · simp [addToGroup, hk]
    · rcases h with h | h
      · exact absurd h.symm hk
      · simp [addToGroup, hk, ih h]

theorem keysOf_addToGroup (gs : Groups) (k : JStr) (r : Row) :
    keysOf (addToGroup gs k r) = if k ∈ keysOf gs then keysOf gs else keysOf gs ++ [k] := by
  by_cases h : k ∈ keysOf gs
  · rw [if_pos h, keysOf_addToGroup_mem gs k r h]
  · rw [if_neg h, addToGroup_not_mem gs k r h, keysOf_append]
    rfl

theorem mem_keysOf_addToGroup (gs : Groups) (k k2 : JStr) (r : Row) :
    k2 ∈ keysOf (addToGroup gs k r) ↔ k2 ∈ keysOf gs ∨ k2 = k := by
  rw [keysOf_addToGroup]
  by_cases h : k ∈ keysOf gs
  · simp only [if_pos h]
    constructor
    · exact Or.inl
    · rintro (h2 | rfl) <;> [exact h2; exact h]
  · simp [if_neg h, List.mem_append]

theorem groupRows_nil (k : JStr) : groupRows [] k = [] := rfl

theorem groupRows_cons (p : JStr × List Row) (gs : Groups) (k : JStr) :
    groupRows (p :: gs) k = if p.1 = k then p.2 else groupRows gs k := by
  simp only [groupRows, List.find?_cons]
  by_cases h : p.1 = k <;> simp [h]

theorem groupRows_addToGroup_self (gs : Groups) (k : JStr) (r : Row) :
    groupRows (addToGroup gs k r) k = groupRows gs k ++ [r] := by
  induction gs with
  | nil => simp [addToGroup, groupRows_cons, groupRows_nil]
  | cons p rest ih =>
    obtain ⟨k2, rs⟩ := p
    by_cases hk : k2 = k
    · subst hk
      simp [addToGroup, groupRows_cons]
    · simp [addToGroup, hk, groupRows_cons, ih]

theorem groupRows_addToGroup_ne (gs : Groups) (k k2 : JStr) (r : Row) (h : k2 ≠ k) :
    groupRows (addToGroup gs k r) k2 = groupRows gs k2 := by
  induction gs with
  | nil =>
    simp only [addToGroup, groupRows_cons, groupRows_nil]
    rw [if_neg (fun e => h e.symm)]
  | cons p rest ih =>
    obtain ⟨k3, rs⟩ := p
    by_cases hk : k3 = k
    · subst hk
      rw [show addToGroup ((k3, rs) :: rest) k3 r = (k3, rs ++ [r]) :: rest from by
        simp [addToGroup]]
      rw [groupRows_cons, groupRows_cons, if_neg (fun e => h e.symm),
        if_neg (fun e => h e.symm)]
    · simp [addToGroup, hk, groupRows_cons, ih]

theorem nodup_keysOf_addToGroup (gs : Groups) (k : JStr) (r : Row)
    (h : (keysOf gs).Nodup) : (keysOf (addToGroup gs k r)).Nodup := by
  rw [keysOf_addToGroup]
  by_cases hm : k ∈ keysOf gs
  · simpa [hm] using h
  · simpa [hm] using List.Nodup.append h (by simp) (by simpa using hm)

/-! ### Decomposition of the collector loop -/

theorem groupRows_collectRows (idx : Nat) (rows : List Row) :
    ∀ (cur : JStr) (gs : Groups) (k : JStr),
      groupRows (collectRows idx rows cur gs) k =
        groupRows gs k ++ groupRows (collectRows idx rows cur []) k := by
  induction rows with
  | nil => intro cur gs k; simp [collectRows, groupRows_nil]
  | cons row rest ih =>
    intro cur gs k
    simp only [collectRows]
    by_cases hc : rowHasContent row = false
    · simp only [if_pos hc]
      exact ih cur gs k
    · simp only [if_neg hc]
      set cur2 := if qValAt idx row = [] then cur else qValAt idx row with hcur2
      by_cases h0 : cur2 = []
      · simp only [if_pos h0]
        exact ih cur2 gs k
      · simp only [if_neg h0]
        rw [ih cur2 (addToGroup gs cur2 row) k, ih cur2 (addToGroup [] cur2 row) k]
        by_cases hk : cur2 = k
        · subst hk
          rw [groupRows_addToGroup_self, groupRows_addToGroup_self]
          simp [groupRows_nil]
        · rw [groupRows_addToGroup_ne _ _ _ _ (fun e => hk e.symm),
            groupRows_addToGroup_ne _ _ _ _ (fun e => hk e.symm)]
          simp [groupRows_nil]

theorem mem_keysOf_collectRows (idx : Nat) (rows : List Row) :
    ∀ (cur : JStr) (gs : Groups) (k : JStr),
      k ∈ keysOf (collectRows idx rows cur gs) ↔
        k ∈ keysOf gs ∨ k ∈ keysOf (collectRows idx rows cur []) := by
  induction rows with
  | nil => intro cur gs k; simp [collectRows, keysOf]
  | cons row rest ih =>
    intro cur gs k
    simp only [collectRows]
    by_cases hc : rowHasContent row = false
    · simp only [if_pos hc]
      exact ih cur gs k
    · simp only [if_neg hc]
      set cur2 := if qValAt idx row = [] then cur else qValAt idx row with hcur2
      by_cases h0 : cur2 = []
      · simp only [if_pos h0]
        exact ih cur2 gs k
      · simp only [if_neg h0]
        rw [ih cur2 (addToGroup gs cur2 row) k, ih cur2 (addToGroup [] cur2 row) k,
          mem_keysOf_addToGroup, mem_keysOf_addToGroup]
        simp only [keysOf_nil, List.not_mem_nil, false_or]
        tauto

theorem nodup_keysOf_collectRows (idx : Nat) (rows : List Row) :
    ∀ (cur : JStr) (gs : Groups), (keysOf gs).Nodup →
      (keysOf (collectRows idx rows cur gs)).Nodup := by
  induction rows with
  | nil => intro cur gs h; simpa [collectRows] using h
  | cons row rest ih =>
    intro cur gs h
    simp only [collectRows]
    by_cases hc : rowHasContent row = false
    · simp only [if_pos hc]; exact ih cur gs h
    · simp only [if_neg hc]
      set cur2 := if qValAt idx row = [] then cur else qValAt idx row with hcur2
      by_cases h0 : cur2 = []
      · simp only [if_pos h0]; exact ih cur2 gs h
      · simp only [if_neg h0]
        exact ih cur2 _ (nodup_keysOf_addToGroup gs cur2 row h)

theorem mem_groupRows_collectRows (idx : Nat) (rows : List Row) :
    ∀ (cur : JStr) (gs : Groups) (k : JStr) (r : Row),
      r ∈ groupRows (collectRows idx rows cur gs) k →
        r ∈ groupRows gs k ∨ r ∈ rows := by
  induction rows with
  | nil =>
    intro cur gs k r h
    simp only [collectRows] at h
    exact Or.inl h
  | cons row rest ih =>
    intro cur gs k r h
    simp only [collectRows] at h
    by_cases hc : rowHasContent row = false
    · rw [if_pos hc] at h
      rcases ih cur gs k r h with h2 | h2
      · exact Or.inl h2
      · exact Or.inr (List.mem_cons_of_mem _ h2)
    · rw [if_neg hc] at h
      set cur2 := if qValAt idx row = [] then cur else qValAt idx row with hcur2
      by_cases h0 : cur2 = []
      · rw [if_pos h0] at h
        rcases ih cur2 gs k r h with h2 | h2
        · exact Or.inl h2
        · exact Or.inr (List.mem_cons_of_mem _ h2)
      · rw [if_neg h0] at h
        rcases ih cur2 _ k r h with h2 | h2
        · by_cases hk : cur2 = k
          · subst hk
            rw [groupRows_addToGroup_self] at h2
            rcases List.mem_append.1 h2 with h3 | h3
            · exact Or.inl h3
            · simp only [List.mem_singleton] at h3
              exact Or.inr (h3 ▸ List.mem_cons_self _ _)
          · rw [groupRows_addToGroup_ne _ _ _ _ (fun e => hk e.symm)] at h2
            exact Or.inl h2
        · exact Or.inr (List.mem_cons_of_mem _ h2)

/-! ### Characterisation of one file-loop iteration and of the whole loop -/

theorem processKosei_koseiGroups (st : MergeState) (wb : Workbook) :
    (processKosei st wb).koseiGroups = collectRows 4 (koseiRows wb) [] st.koseiGroups := by
  unfold processKosei koseiRows
  cases wb.kosei with
  | none => simp [collectRows]
  | some data =>
    by_cases h : data.isEmpty
    · rw [List.isEmpty_iff] at h
      subst h
      simp [collectRows]
    · simp [h]

theorem processKosei_koseiHeaders (st : MergeState) (wb : Workbook) :
    (processKosei st wb).koseiHeaders =
      if st.koseiHeaders.isEmpty then koseiHead wb else st.koseiHeaders := by
  unfold processKosei koseiHead
  cases wb.kosei with
  | none =>
    by_cases h : st.koseiHeaders.isEmpty
    · rw [List.isEmpty_iff] at h
      simp [h]
    · simp [h]
  | some data =>
    by_cases h : data.isEmpty
    · rw [List.isEmpty_iff] at h
      subst h
      by_cases h2 : st.koseiHeaders.isEmpty
      · rw [List.isEmpty_iff] at h2
        simp [h2]
      · simp [h2]
    · simp [h]

theorem processKosei_others (st : MergeState) (wb : Workbook) :
    (processKosei st wb).naiyoGroups = st.naiyoGroups ∧
      (processKosei st wb).naiyoHeaders = st.naiyoHeaders ∧
      (processKosei st wb).masterTempre = st.masterTempre := by
  unfold processKosei
  cases wb.kosei with
  | none => exact ⟨rfl, rfl, rfl⟩
  | some data =>
    by_cases h : data.isEmpty
    · simp [h]
    · simp [h]

theorem processNaiyo_naiyoGroups (st : MergeState) (wb : Workbook) :
    (processNaiyo st wb).naiyoGroups = collectRows 0 (naiyoRows wb) [] st.naiyoGroups := by
  unfold processNaiyo naiyoRows
  cases wb.naiyo with
  | none => simp [collectRows]
  | some data =>
    by_cases h : data.isEmpty
    · rw [List.isEmpty_iff] at h
      subst h
      simp [collectRows]
    · simp [h]

theorem processNaiyo_naiyoHeaders (st : MergeState) (wb : Workbook) :
    (processNaiyo st wb).naiyoHeaders =
      if st.naiyoHeaders.isEmpty then naiyoHead wb else st.naiyoHeaders := by
  unfold processNaiyo naiyoHead
  cases wb.naiyo with
  | none =>
    by_cases h : st.naiyoHeaders.isEmpty
    · rw [List.isEmpty_iff] at h
      simp [h]
    · simp [h]
  | some data =>
    by_cases h : data.isEmpty
    · rw [List.isEmpty_iff] at h
      subst h
      by_cases h2 : st.naiyoHeaders.isEmpty
      · rw [List.isEmpty_iff] at h2
        simp [h2]
      · simp [h2]
    · simp [h]

theorem processNaiyo_others (st : MergeState) (wb : Workbook) :
    (processNaiyo st wb).koseiGroups = st.koseiGroups ∧
      (processNaiyo st wb).koseiHeaders = st.koseiHeaders ∧
      (processNaiyo st wb).masterTempre = st.masterTempre := by
  unfold processNaiyo
  cases wb.naiyo with
  | none => exact ⟨rfl, rfl, rfl⟩
  | some data =>
    by_cases h : data.isEmpty
    · simp [h]
    · simp [h]

theorem processTempre_masterTempre (st : MergeState) (wb : Workbook) :
    (processTempre st wb).masterTempre =
      match st.masterTempre, wb.tempre with
      | none, t => t
      | some t, _ => some t := by
  obtain ⟨kg, ng, kh, nh, mt⟩ := st
  obtain ⟨ko, na, te⟩ := wb
  unfold processTempre
  cases mt <;> cases te <;> rfl

theorem processTempre_others (st : MergeState) (wb : Workbook) :
    (processTempre st wb).koseiGroups = st.koseiGroups ∧
      (processTempre st wb).naiyoGroups = st.naiyoGroups ∧
      (processTempre st wb).koseiHeaders = st.koseiHeaders ∧
      (processTempre st wb).naiyoHeaders = st.naiyoHeaders := by
  obtain ⟨kg, ng, kh, nh, mt⟩ := st
  obtain ⟨ko, na, te⟩ := wb
  unfold processTempre
  cases mt <;> cases te <;> exact ⟨rfl, rfl, rfl, rfl⟩

theorem processFile_koseiGroups (st : MergeState) (wb : Workbook) :
    (processFile st wb).koseiGroups = collectRows 4 (koseiRows wb) [] st.koseiGroups := by
  unfold processFile
  rw [(processTempre_others _ _).1, (processNaiyo_others _ _).1, processKosei_koseiGroups]

theorem processFile_naiyoGroups (st : MergeState) (wb : Workbook) :
    (processFile st wb).naiyoGroups = collectRows 0 (naiyoRows wb) [] st.naiyoGroups := by
  unfold processFile
  rw [(processTempre_others _ _).2.1, processNaiyo_naiyoGroups, (processKosei_others _ _).1]

theorem processFile_koseiHeaders (st : MergeState) (wb : Workbook) :
    (processFile st wb).koseiHeaders =
      if st.koseiHeaders.isEmpty then koseiHead wb else st.koseiHeaders := by
  unfold processFile
  rw [(processTempre_others _ _).2.2.1, (processNaiyo_others _ _).2.1, processKosei_koseiHeaders]

theorem processFile_naiyoHeaders (st : MergeState) (wb : Workbook) :
    (processFile st wb).naiyoHeaders =
      if st.naiyoHeaders.isEmpty then naiyoHead wb else st.naiyoHeaders := by
  unfold processFile
  rw [(processTempre_others _ _).2.2.2, processNaiyo_naiyoHeaders, (processKosei_others _ _).2.1]

theorem processFile_masterTempre (st : MergeState) (wb : Workbook) :
    (processFile st wb).masterTempre =
      match st.masterTempre, wb.tempre with
      | none, t => t
      | some t, _ => some t := by
  unfold processFile
  rw [processTempre_masterTempre, (processNaiyo_others _ _).2.2, (processKosei_others _ _).2.2]

theorem runFiles_koseiGroups (wbs : List Workbook) :
    (runFiles wbs).koseiGroups = collectMany 4 (wbs.map koseiRows) [] := by
  suffices h : ∀ (st : MergeState),
      (wbs.foldl processFile st).koseiGroups = collectMany 4 (wbs.map koseiRows) st.koseiGroups by
    exact h initState
  induction wbs with
  | nil => intro st; rfl
  | cons wb rest ih =>
    intro st
    simp only [List.foldl_cons, List.map_cons, collectMany] at ih ⊢
    rw [ih (processFile st wb), processFile_koseiGroups]

theorem runFiles_naiyoGroups (wbs : List Workbook) :
    (runFiles wbs).naiyoGroups = collectMany 0 (wbs.map naiyoRows) [] := by
  suffices h : ∀ (st : MergeState),
      (wbs.foldl processFile st).naiyoGroups = collectMany 0 (wbs.map naiyoRows) st.naiyoGroups by
    exact h initState
  induction wbs with
  | nil => intro st; rfl
  | cons wb rest ih =>
    intro st
    simp only [List.foldl_cons, List.map_cons, collectMany] at ih ⊢
    rw [ih (processFile st wb), processFile_naiyoGroups]

theorem runFiles_koseiHeaders (wbs : List Workbook) :
    (runFiles wbs).koseiHeaders =
      wbs.foldl (fun h wb => if h.isEmpty then koseiHead wb else h) [] := by
  suffices h : ∀ (st : MergeState),
      (wbs.foldl processFile st).koseiHeaders =
        wbs.foldl (fun h wb => if h.isEmpty then koseiHead wb else h) st.koseiHeaders by
    exact h initState
  induction wbs with
  | nil => intro st; rfl
  | cons wb rest ih =>
    intro st
    simp only [List.foldl_cons]
    rw [ih (processFile st wb), processFile_koseiHeaders]

theorem runFiles_naiyoHeaders (wbs : List Workbook) :
    (runFiles wbs).naiyoHeaders =
      wbs.foldl (fun h wb => if h.isEmpty then naiyoHead wb else h) [] := by
  suffices h : ∀ (st : MergeState),
      (wbs.foldl processFile st).naiyoHeaders =
        wbs.foldl (fun h wb => if h.isEmpty then naiyoHead wb else h) st.naiyoHeaders by
    exact h initState
  induction wbs with
  | nil => intro st; rfl
  | cons wb rest ih =>
    intro st
    simp only [List.foldl_cons]
    rw [ih (processFile st wb), processFile_naiyoHeaders]

theorem runFiles_masterTempre (wbs : List Workbook) :
    (runFiles wbs).masterTempre = wbs.findSome? Workbook.tempre := by
  suffices h : ∀ (st : MergeState),
      (wbs.foldl processFile st).masterTempre =
        match st.masterTempre with
        | some t => some t
        | none => wbs.findSome? Workbook.tempre by
    exact h initState
  induction wbs with
  | nil =>
    intro st
    cases hmt : st.masterTempre <;> simp [hmt]
  | cons wb rest ih =>
    intro st
    simp only [List.foldl_cons]
    rw [ih (processFile st wb), processFile_masterTempre]
    cases hmt : st.masterTempre with
    | some t => simp [List.findSome?_cons]
    | none =>
      cases hte : wb.tempre with
      | some t => simp [List.findSome?_cons, hte]
      | none => simp [List.findSome?_cons, hte]

/-! ### Per-file decomposition of the accumulated groups -/

theorem groupRows_collectMany (idx : Nat) (datas : List (List Row)) :
    ∀ (gs : Groups) (k : JStr),
      groupRows (collectMany idx datas gs) k =
        groupRows gs k ++ datas.flatMap (fun d => groupRows (fileGroups idx d) k) := by
  induction datas with
  | nil => intro gs k; simp [collectMany]
  | cons d rest ih =>
    intro gs k
    simp only [collectMany, List.foldl_cons, List.flatMap_cons] at ih ⊢
    rw [ih, groupRows_collectRows]
    simp [fileGroups, List.append_assoc]

theorem mem_keysOf_collectMany (idx : Nat) (datas : List (List Row)) :
    ∀ (gs : Groups) (k : JStr),
      k ∈ keysOf (collectMany idx datas gs) ↔
        k ∈ keysOf gs ∨ ∃ d ∈ datas, k ∈ keysOf (fileGroups idx d) := by
  induction datas with
  | nil => intro gs k; simp [collectMany]
  | cons d rest ih =>
    intro gs k
    simp only [collectMany, List.foldl_cons] at ih ⊢
    rw [ih, mem_keysOf_collectRows]
    simp only [fileGroups, List.mem_cons]
    constructor
    · rintro ((h | h) | ⟨d2, hd2, h⟩)
      · exact Or.inl h
      · exact Or.inr ⟨d, Or.inl rfl, h⟩
      · exact Or.inr ⟨d2, Or.inr hd2, h⟩
    · rintro (h | ⟨d2, (rfl | hd2), h⟩)
      · exact Or.inl (Or.inl h)
      · exact Or.inl (Or.inr h)
      · exact Or.inr ⟨d2, hd2, h⟩

theorem nodup_keysOf_collectMany (idx : Nat) (datas : List (List Row)) :
    ∀ (gs : Groups), (keysOf gs).Nodup → (keysOf (collectMany idx datas gs)).Nodup := by
  induction datas with
  | nil => intro gs h; simpa [collectMany] using h
  | cons d rest ih =>
    intro gs h
    simp only [collectMany, List.foldl_cons] at ih ⊢
    exact ih _ (nodup_keysOf_collectRows idx d [] gs h)

theorem mem_groupRows_collectMany (idx : Nat) (datas : List (List Row)) :
    ∀ (gs : Groups) (k : JStr) (r : Row),
      r ∈ groupRows (collectMany idx datas gs) k →
        r ∈ groupRows gs k ∨ ∃ d ∈ datas, r ∈ d := by
  induction datas with
  | nil =>
    intro gs k r h
    simp only [collectMany, List.foldl_nil] at h
    exact Or.inl h
  | cons d rest ih =>
    intro gs k r h
    simp only [collectMany, List.foldl_cons] at h
    rcases ih _ k r h with h2 | ⟨d2, hd2, h2⟩
    · rcases mem_groupRows_collectRows idx d [] gs k r h2 with h3 | h3
      · exact Or.inl h3
      · exact Or.inr ⟨d, List.mem_cons_self _ _, h3⟩
    · exact Or.inr ⟨d2, List.mem_cons_of_mem _ hd2, h2⟩

theorem groupRows_runFiles_kosei (wbs : List Workbook) (k : JStr) :
    groupRows (runFiles wbs).koseiGroups k =
      wbs.flatMap (fun wb => groupRows (fileKoseiGroups wb) k) := by
  rw [runFiles_koseiGroups, groupRows_collectMany]
  simp only [groupRows_nil, List.nil_append]
  induction wbs with
  | nil => rfl
  | cons wb rest ih => simp [List.flatMap_cons, ih, fileKoseiGroups]

theorem groupRows_runFiles_naiyo (wbs : List Workbook) (k : JStr) :
    groupRows (runFiles wbs).naiyoGroups k =
      wbs.flatMap (fun wb => groupRows (fileNaiyoGroups wb) k) := by
  rw [runFiles_naiyoGroups, groupRows_collectMany]
  simp only [groupRows_nil, List.nil_append]
  induction wbs with
  | nil => rfl
  | cons wb rest ih => simp [List.flatMap_cons, ih, fileNaiyoGroups]

theorem mem_keysOf_runFiles_kosei (wbs : List Workbook) (k : JStr) :
    k ∈ keysOf (runFiles wbs).koseiGroups ↔
      ∃ wb ∈ wbs, k ∈ keysOf (fileKoseiGroups wb) := by
  rw [runFiles_koseiGroups, mem_keysOf_collectMany]
  simp [fileKoseiGroups, keysOf_nil]

theorem mem_keysOf_runFiles_naiyo (wbs : List Workbook) (k : JStr) :
    k ∈ keysOf (runFiles wbs).naiyoGroups ↔
      ∃ wb ∈ wbs, k ∈ keysOf (fileNaiyoGroups wb) := by
  rw [runFiles_naiyoGroups, mem_keysOf_collectMany]
  simp [fileNaiyoGroups, keysOf_nil]

/-! ### The sorted key list -/

theorem sortedKeys_sorted (gs : Groups) : List.Sorted naturalLe (sortedKeys gs) :=
  List.sorted_insertionSort naturalLe (keysOf gs)

theorem sortedKeys_perm (gs : Groups) : (sortedKeys gs).Perm (keysOf gs) :=
  List.perm_insertionSort naturalLe (keysOf gs)

theorem mem_sortedKeys (gs : Groups) (k : JStr) :
    k ∈ sortedKeys gs ↔ k ∈ keysOf gs :=
  (sortedKeys_perm gs).mem_iff

theorem sortedKeys_nodup (gs : Groups) (h : (keysOf gs).Nodup) :
    (sortedKeys gs).Nodup :=
  ((sortedKeys_perm gs).nodup_iff).2 h

/-! ### Claim C2: the Block Collector's row-by-row behaviour -/

theorem collectRows_eq_specCollect (idx : Nat) (rows : List Row) :
    ∀ (cur : JStr) (gs : Groups), collectRows idx rows cur gs = specCollect idx rows cur gs := by
  induction rows with
  | nil => intro cur gs; rfl
  | cons row rest ih =>
    intro cur gs
    have hAll : rowHasContent row = false ↔ row.all (fun c => c == Cell.str []) = true := by
      simp [rowHasContent, List.any_eq_true, List.all_eq_true]
    simp only [collectRows, specCollect]
    by_cases hc : row.all (fun c => c == Cell.str []) = true
    · rw [if_pos (hAll.2 hc), if_pos hc]
      exact ih cur gs
    · rw [if_neg (fun e => hc (hAll.1 e)), if_neg hc]
      by_cases hq : qValAt idx row = []
      · by_cases h0 : cur = []
        · rw [hq, h0]
          simp only [eq_self_iff_true, if_true, ne_eq, not_true_eq_false, if_false]
          exact ih [] gs
        · rw [hq]
          simp only [eq_self_iff_true, if_true, ne_eq, not_true_eq_false, if_false]
          rw [if_neg h0, if_pos h0]
          exact ih cur (addToGroup gs cur row)
      · rw [if_neg hq, if_neg hq, if_pos (by simpa using hq)]
        exact ih (qValAt idx row) (addToGroup gs (qValAt idx row) row)

/-- C2: on every governed-sheet row matrix the Block Collector iterates data
rows in order, skipping all-empty rows without touching the running
identifier, starting a block on a non-empty designated cell (trimmed string
value), forward-filling rows with an empty designated cell into the running
block, and silently dropping such rows while no block is running; on the
sheet-A rows with column-4 values Q1, empty, Q2 it yields the map Q1 to the
first two rows and Q2 to the third. -/
theorem C2_block_collector :
    (∀ (idx : Nat) (rows : List Row) (cur : JStr) (gs : Groups),
        collectRows idx rows cur gs = specCollect idx rows cur gs) ∧
      collectRows 4 [sheetARow "Q1".data, sheetARow [], sheetARow "Q2".data] [] [] =
        [("Q1".data, [sheetARow "Q1".data, sheetARow []]),
          ("Q2".data, [sheetARow "Q2".data])] := by
  constructor
  · intro idx rows cur gs
    exact collectRows_eq_specCollect idx rows cur gs
  · decide

/-! ### Claim C10: falsy non-string designated cells act as empty cells -/

/-- C10: a data row whose designated cell holds a falsy non-string value (the
number 0 or false) is treated exactly like a row with an empty designated
cell: the identifier read is empty, so the row is forward-filled into the
running block when one exists and dropped otherwise, and no block named by
that cell is ever created. -/
theorem C10_falsy_cell_forward_fills (idx : Nat) (row : Row) (rest : List Row)
    (cur : JStr) (gs : Groups) (c : Cell) (hc : row.get? idx = some c)
    (hfalsy : c = Cell.num 0 ∨ c = Cell.boolv false) :
    qValAt idx row = [] ∧
      collectRows idx (row :: rest) cur gs =
        collectRows idx rest cur (if cur = [] then gs else addToGroup gs cur row) := by
  have htr : c.truthy = false := by rcases hfalsy with rfl | rfl <;> rfl
  have hq : qValAt idx row = [] := by
    simp only [qValAt]
    rw [hc]
    simp [htr]
  have hcont : rowHasContent row = true := by
    rw [rowHasContent, List.any_eq_true]
    refine ⟨c, List.get?_mem hc, ?_⟩
    rcases hfalsy with rfl | rfl <;> rfl
  refine ⟨hq, ?_⟩
  simp only [collectRows, hcont, hq]
  by_cases h0 : cur = []
  · simp [h0]
  · simp [h0]

/-- C10 witness: a concrete row whose designated cell is the number 0 is
dropped (no running identifier), and no block named 0 appears. -/
theorem C10_falsy_cell_witness :
    qValAt 0 [Cell.num 0] = [] ∧
      collectRows 0 [[Cell.num 0]] [] [] =
        collectRows 0 [] []
          (if ([] : JStr) = [] then [] else addToGroup [] [] [Cell.num 0]) :=
  C10_falsy_cell_forward_fills 0 [Cell.num 0] [] [] [] (Cell.num 0) rfl (Or.inl rfl)

/-! ### Claim C8: the pass-through sheet -/

theorem findSome?_tempre_of_find? (wbs : List Workbook) (wb : Workbook)
    (h : wbs.find? (fun w => w.tempre.isSome) = some wb) :
    wbs.findSome? Workbook.tempre = wb.tempre := by
  induction wbs with
  | nil => simp at h
  | cons w rest ih =>
    rw [List.find?_cons] at h
    rw [List.findSome?_cons]
    cases hte : w.tempre with
    | some t =>
      rw [hte] at h
      simp only [Option.isSome_some] at h
      cases h
      exact hte.symm
    | none =>
      rw [hte] at h
      simp only [Option.isSome_none] at h
      exact ih h

/-- C8: the output workbook's pass-through sheet is exactly the first
non-null テンプレ sheet among the group's files in processing order (so the
first file that contains it wins and later copies are ignored), and it is
omitted, without error, exactly when no file contains it. -/
theorem C8_passthrough_sheet (wbs : List Workbook) :
    (mergeExcelFiles wbs).tempre = wbs.findSome? Workbook.tempre ∧
      (∀ wb : Workbook, wbs.find? (fun w => w.tempre.isSome) = some wb →
        (mergeExcelFiles wbs).tempre = wb.tempre) ∧
      ((mergeExcelFiles wbs).tempre = none ↔ ∀ wb ∈ wbs, wb.tempre = none) := by
  have h : (mergeExcelFiles wbs).tempre = wbs.findSome? Workbook.tempre := by
    simpa [mergeExcelFiles] using runFiles_masterTempre wbs
  refine ⟨h, ?_, ?_⟩
  · intro wb hfind
    rw [h]
    exact findSome?_tempre_of_find? wbs wb hfind
  · rw [h]
    exact List.findSome?_eq_none_iff

/-! ### Claim C5: the natural comparator -/

/-- C5: the natural comparator is a total preorder on identifier strings
(total, transitive, with mutually comparable strings sharing one collation
key), numeric runs compare by value and letters case-insensitively: 2 sorts
before 10, Q2 before Q10, a and A are equal-order, and sorting the list 10,
2, 1 with it yields 1, 2, 10. -/
theorem C5_natural_comparator :
    (∀ a b : JStr, naturalLe a b ∨ naturalLe b a) ∧
      (∀ a b c : JStr, naturalLe a b → naturalLe b c → naturalLe a c) ∧
      (∀ a b : JStr, naturalLe a b → naturalLe b a → naturalKey a = naturalKey b) ∧
      (naturalLe "2".data "10".data ∧ ¬ naturalLe "10".data "2".data) ∧
      (naturalLe "Q2".data "Q10".data ∧ ¬ naturalLe "Q10".data "Q2".data) ∧
      (naturalLe "a".data "A".data ∧ naturalLe "A".data "a".data) ∧
      List.insertionSort naturalLe ["10".data, "2".data, "1".data] =
        ["1".data, "2".data, "10".data] := by
  refine ⟨fun a b => le_total _ _, fun a b c h h2 => le_trans h h2,
    fun a b h h2 => le_antisymm h h2, by decide, by decide, by decide, by decide⟩

/-! ### Claim C1: block structure of a merged governed sheet -/

theorem mergeExcelFiles_kosei (wbs : List Workbook) :
    (mergeExcelFiles wbs).kosei =
      (runFiles wbs).koseiHeaders ::
        (sortedKeys (runFiles wbs).koseiGroups).flatMap
          (fun k => wbs.flatMap (fun wb => groupRows (fileKoseiGroups wb) k)) := by
  have hf : (fun k => groupRows (runFiles wbs).koseiGroups k) =
      (fun k => wbs.flatMap (fun wb => groupRows (fileKoseiGroups wb) k)) :=
    funext (fun k => groupRows_runFiles_kosei wbs k)
  simp only [mergeExcelFiles, finalData]
  rw [hf]

theorem mergeExcelFiles_naiyo (wbs : List Workbook) :
    (mergeExcelFiles wbs).naiyo =
      (runFiles wbs).naiyoHeaders ::
        (sortedKeys (runFiles wbs).naiyoGroups).flatMap
          (fun k => wbs.flatMap (fun wb => groupRows (fileNaiyoGroups wb) k)) := by
  have hf : (fun k => groupRows (runFiles wbs).naiyoGroups k) =
      (fun k => wbs.flatMap (fun wb => groupRows (fileNaiyoGroups wb) k)) :=
    funext (fun k => groupRows_runFiles_naiyo wbs k)
  simp only [mergeExcelFiles, finalData]
  rw [hf]

theorem nodup_keysOf_runFiles_kosei (wbs : List Workbook) :
    (keysOf (runFiles wbs).koseiGroups).Nodup := by
  rw [runFiles_koseiGroups]
  exact nodup_keysOf_collectMany 4 _ [] (by simp [keysOf])

theorem nodup_keysOf_runFiles_naiyo (wbs : List Workbook) :
    (keysOf (runFiles wbs).naiyoGroups).Nodup := by
  rw [runFiles_naiyoGroups]
  exact nodup_keysOf_collectMany 0 _ [] (by simp [keysOf])

/-- C1: for every merge group and each governed sheet, the merged output
sheet is the captured header row followed by, for each block identifier of
the sorted identifier list - which is natural-comparator sorted, duplicate
free and holds exactly the identifiers seen in the files of the group - the
concatenation over the files in input order of that identifier's rows as
collected from each file alone; on the Q2,Q1 / Q1,Q3 example the blocks come
out as Q1 (file-1 row, then file-2 row), Q2, Q3. -/
theorem C1_merged_sheet_structure :
    (∀ wbs : List Workbook,
      (mergeExcelFiles wbs).kosei =
        (runFiles wbs).koseiHeaders ::
          (sortedKeys (runFiles wbs).koseiGroups).flatMap
            (fun k => wbs.flatMap (fun wb => groupRows (fileKoseiGroups wb) k)) ∧
      List.Sorted naturalLe (sortedKeys (runFiles wbs).koseiGroups) ∧
      (sortedKeys (runFiles wbs).koseiGroups).Nodup ∧
      (∀ k : JStr, k ∈ sortedKeys (runFiles wbs).koseiGroups ↔
        ∃ wb ∈ wbs, k ∈ keysOf (fileKoseiGroups wb))) ∧
    (∀ wbs : List Workbook,
      (mergeExcelFiles wbs).naiyo =
        (runFiles wbs).naiyoHeaders ::
          (sortedKeys (runFiles wbs).naiyoGroups).flatMap
            (fun k => wbs.flatMap (fun wb => groupRows (fileNaiyoGroups wb) k)) ∧
      List.Sorted naturalLe (sortedKeys (runFiles wbs).naiyoGroups) ∧
      (sortedKeys (runFiles wbs).naiyoGroups).Nodup ∧
      (∀ k : JStr, k ∈ sortedKeys (runFiles wbs).naiyoGroups ↔
        ∃ wb ∈ wbs, k ∈ keysOf (fileNaiyoGroups wb))) ∧
    (mergeExcelFiles [exWb1, exWb2]).kosei =
      [exHeader, sheetARow "Q1".data, sheetARow "Q1".data,
        sheetARow "Q2".data, sheetARow "Q3".data] := by
  refine ⟨fun wbs => ⟨mergeExcelFiles_kosei wbs, sortedKeys_sorted _,
      sortedKeys_nodup _ (nodup_keysOf_runFiles_kosei wbs), fun k => ?_⟩,
    fun wbs => ⟨mergeExcelFiles_naiyo wbs, sortedKeys_sorted _,
      sortedKeys_nodup _ (nodup_keysOf_runFiles_naiyo wbs), fun k => ?_⟩, by decide⟩
  · rw [mem_sortedKeys, mem_keysOf_runFiles_kosei]
  · rw [mem_sortedKeys, mem_keysOf_runFiles_naiyo]

/-! ### Claim C7: header capture from the first supplying file -/

theorem headerFold_stay (f : Workbook → Row) (wbs : List Workbook) :
    ∀ acc : Row, acc ≠ [] →
      wbs.foldl (fun h wb => if h.isEmpty then f wb else h) acc = acc := by
  induction wbs with
  | nil => intro acc _; rfl
  | cons wb rest ih =>
    intro acc h
    simp only [List.foldl_cons]
    rw [if_neg (fun e => h (List.isEmpty_iff.1 e))]
    exact ih acc h

theorem headerFold_first (sel : Workbook → Option (List Row)) (wbs : List Workbook)
    (wb : Workbook)
    (hfind : wbs.find? (fun w => !((sel w).getD []).isEmpty) = some wb)
    (hh : ((sel wb).getD []).headD [] ≠ []) :
    wbs.foldl (fun h w => if h.isEmpty then ((sel w).getD []).headD [] else h) [] =
      ((sel wb).getD []).headD [] := by
  induction wbs with
  | nil => simp at hfind
  | cons w rest ih =>
    rw [List.find?_cons] at hfind
    simp only [List.foldl_cons, List.isEmpty_nil, if_true]
    by_cases hs : (!((sel w).getD []).isEmpty) = true
    · rw [hs] at hfind
      simp only [] at hfind
      cases hfind
      exact headerFold_stay _ rest _ hh
    · rw [Bool.not_eq_true] at hs
      rw [hs] at hfind
      simp only [] at hfind
      have hwempty : ((sel w).getD []).headD [] = [] := by
        have : ((sel w).getD []).isEmpty = true := by
          simpa using hs
        rw [List.isEmpty_iff.1 this]
        rfl
      rw [hwempty]
      exact ih hfind

/-- C7: the header row of each governed output sheet is the header row of
the first file in processing order that supplies that sheet (later files'
headers neither replace it nor survive), and every data row of the merged
sheet originates from some file's data region (rows below the header), so no
subsequent file's header row is carried into the data. -/
theorem C7_header_capture (wbs : List Workbook) :
    (∀ wb : Workbook, wbs.find? suppliesKosei = some wb → koseiHead wb ≠ [] →
      (mergeExcelFiles wbs).kosei.headD [] = koseiHead wb) ∧
      (∀ r ∈ (mergeExcelFiles wbs).kosei.drop 1, ∃ wb ∈ wbs, r ∈ koseiRows wb) ∧
      (∀ wb : Workbook, wbs.find? suppliesNaiyo = some wb → naiyoHead wb ≠ [] →
        (mergeExcelFiles wbs).naiyo.headD [] = naiyoHead wb) ∧
      (∀ r ∈ (mergeExcelFiles wbs).naiyo.drop 1, ∃ wb ∈ wbs, r ∈ naiyoRows wb) := by
  refine ⟨?_, ?_, ?_, ?_⟩
  · intro wb hfind hh
    rw [mergeExcelFiles_kosei]
    simp only [List.headD_cons]
    rw [runFiles_koseiHeaders]
    exact headerFold_first Workbook.kosei wbs wb hfind hh
  · intro r hr
    rw [mergeExcelFiles_kosei] at hr
    simp only [List.drop_succ_cons, List.drop_zero] at hr
    rcases List.mem_flatMap.1 hr with ⟨k, _, hk2⟩
    rcases List.mem_flatMap.1 hk2 with ⟨wb, hwb, hr2⟩
    rcases mem_groupRows_collectRows 4 (koseiRows wb) [] [] k r hr2 with h3 | h3
    · simp [groupRows_nil] at h3
    · exact ⟨wb, hwb, h3⟩
  · intro wb hfind hh
    rw [mergeExcelFiles_naiyo]
    simp only [List.headD_cons]
    rw [runFiles_naiyoHeaders]
    exact headerFold_first Workbook.naiyo wbs wb hfind hh
  · intro r hr
    rw [mergeExcelFiles_naiyo] at hr
    simp only [List.drop_succ_cons, List.drop_zero] at hr
    rcases List.mem_flatMap.1 hr with ⟨k, _, hk2⟩
    rcases List.mem_flatMap.1 hk2 with ⟨wb, hwb, hr2⟩
    rcases mem_groupRows_collectRows 0 (naiyoRows wb) [] [] k r hr2 with h3 | h3
    · simp [groupRows_nil] at h3
    · exact ⟨wb, hwb, h3⟩

/-! ### Claim C4: the group-key extractor -/

theorem suffixSplit_digits_none (cs : JStr) (h : ∀ c ∈ cs, c.isDigit = true) :
    suffixSplit cs = none := by
  induction cs with
  | nil => rfl
  | cons c cs ih =>
    simp only [suffixSplit]
    rw [ih (fun c2 hc2 => h c2 (List.mem_cons_of_mem _ hc2))]
    have hcd : c.isDigit = true := h c (List.mem_cons_self _ _)
    have h1 : (c == '_' || c == '-') = false := by
      by_cases e1 : c = '_'
      · subst e1
        exact absurd hcd (by decide)
      · by_cases e2 : c = '-'
        · subst e2
          exact absurd hcd (by decide)
        · simp [e1, e2]
    simp [h1]

theorem suffixSplit_sound (cs : JStr) :
    ∀ pre, suffixSplit cs = some pre →
      ∃ sep ds, cs = pre ++ sep :: ds ∧ (sep = '_' ∨ sep = '-') ∧ ds ≠ [] ∧
        ∀ c ∈ ds, c.isDigit = true := by
  induction cs with
  | nil => intro pre h; simp [suffixSplit] at h
  | cons c cs ih =>
    intro pre h
    simp only [suffixSplit] at h
    cases hss : suffixSplit cs with
    | some pre2 =>
      rw [hss] at h
      cases h
      obtain ⟨sep, ds, hcs, hsep, hds, hdig⟩ := ih pre2 hss
      exact ⟨sep, ds, by rw [hcs]; rfl, hsep, hds, hdig⟩
    | none =>
      rw [hss] at h
      by_cases hcond :
          ((c == '_' || c == '-') && !cs.isEmpty && cs.all Char.isDigit) = true
      · rw [if_pos hcond] at h
        cases h
        simp only [Bool.and_eq_true, Bool.or_eq_true, beq_iff_eq, Bool.not_eq_true,
          List.all_eq_true] at hcond
        refine ⟨c, cs, rfl, hcond.1.1, ?_, hcond.2⟩
        intro e
        rw [e] at hcond
        simp at hcond
      · rw [if_neg hcond] at h
        cases h

theorem suffixSplit_complete (pre : JStr) :
    ∀ (sep : Char) (ds : JStr), (sep = '_' ∨ sep = '-') → ds ≠ [] →
      (∀ c ∈ ds, c.isDigit = true) →
      suffixSplit (pre ++ sep :: ds) = some pre := by
  induction pre with
  | nil =>
    intro sep ds hsep hds hdig
    have hb1 : (sep == '_' || sep == '-') = true := by
      rcases hsep with rfl | rfl <;> rfl
    have hb2 : (!ds.isEmpty) = true := by
      simpa [List.isEmpty_iff] using hds
    have hb3 : ds.all Char.isDigit = true := List.all_eq_true.2 hdig
    simp only [List.nil_append, suffixSplit]
    rw [suffixSplit_digits_none ds hdig]
    rw [if_pos (by simp [hb1, hb2, hb3])]
  | cons p pre ih =>
    intro sep ds hsep hds hdig
    have hh := ih sep ds hsep hds hdig
    simp only [List.cons_append, suffixSplit, List.append_eq, hh]

theorem getGroupKey_of_suffix (s pre : JStr) (sep : Char) (ds : JStr)
    (hsplit : stripExt s = pre ++ sep :: ds) (hsep : sep = '_' ∨ sep = '-')
    (hds : ds ≠ []) (hdig : ∀ c ∈ ds, c.isDigit = true)
    (hpre : ∀ c ∈ pre, jsDotClass c = true) :
    getGroupKey s = pre := by
  simp only [getGroupKey]
  rw [hsplit, suffixSplit_complete pre sep ds hsep hds hdig]
  simp only [List.all_eq_true.2 hpre, if_true]

theorem getGroupKey_of_no_suffix (s : JStr)
    (h : ∀ pre sep ds, stripExt s = pre ++ sep :: ds → (sep = '_' ∨ sep = '-') →
      ds ≠ [] → (∀ c ∈ ds, c.isDigit = true) → False) :
    getGroupKey s = stripExt s := by
  simp only [getGroupKey]
  cases hss : suffixSplit (stripExt s) with
  | none => rfl
  | some pre =>
    obtain ⟨sep, ds, hcs, hsep, hds, hdig⟩ := suffixSplit_sound _ pre hss
    exact (h pre sep ds hcs hsep hds hdig).elim

theorem getGroupKey_of_bad_prefix (s pre : JStr) (sep : Char) (ds : JStr)
    (hsplit : stripExt s = pre ++ sep :: ds) (hsep : sep = '_' ∨ sep = '-')
    (hds : ds ≠ []) (hdig : ∀ c ∈ ds, c.isDigit = true)
    (hbad : ¬ ∀ c ∈ pre, jsDotClass c = true) :
    getGroupKey s = stripExt s := by
  simp only [getGroupKey]
  rw [hsplit, suffixSplit_complete pre sep ds hsep hds hdig]
  show (if List.all pre jsDotClass = true then pre else pre ++ sep :: ds) = pre ++ sep :: ds
  rw [if_neg (fun e => hbad (List.all_eq_true.1 e))]

/-- C4 counterexample: the claim as stated strips the suffix whenever the
extension-stripped name ends in underscore-plus-digits, so it maps the name
with an embedded newline to the short prefix, but getGroupKey leaves that
name unstripped: the regex dot does not match a line terminator, so the
anchored pattern fails. -/
theorem C4_counterexample :
    specGroupKey "a\nb_1.xlsx".data = "a\nb".data ∧
      getGroupKey "a\nb_1.xlsx".data = "a\nb_1".data ∧
      "a\nb_1".data ≠ "a\nb".data := by
  refine ⟨by decide, by decide, by decide⟩

/-- C4 amended: getGroupKey first strips the extension; then, whenever the
remainder decomposes as a prefix, one underscore or hyphen, and one or more
digits running to the end AND the prefix contains no line terminator, it
returns that prefix; when the prefix contains a line terminator, or no such
decomposition exists, it returns the extension-stripped name; only the one
trailing suffix is stripped, as on the four stated examples. -/
theorem C4_group_key :
    (∀ (s pre : JStr) (sep : Char) (ds : JStr),
      stripExt s = pre ++ sep :: ds → (sep = '_' ∨ sep = '-') → ds ≠ [] →
      (∀ c ∈ ds, c.isDigit = true) → (∀ c ∈ pre, jsDotClass c = true) →
      getGroupKey s = pre) ∧
    (∀ (s pre : JStr) (sep : Char) (ds : JStr),
      stripExt s = pre ++ sep :: ds → (sep = '_' ∨ sep = '-') → ds ≠ [] →
      (∀ c ∈ ds, c.isDigit = true) → (¬ ∀ c ∈ pre, jsDotClass c = true) →
      getGroupKey s = stripExt s) ∧
    (∀ s : JStr,
      (∀ pre sep ds, stripExt s = pre ++ sep :: ds → (sep = '_' ∨ sep = '-') →
        ds ≠ [] → (∀ c ∈ ds, c.isDigit = true) → False) →
      getGroupKey s = stripExt s) ∧
    getGroupKey "A_中学_1.xlsx".data = "A_中学".data ∧
    getGroupKey "A_中学_1_2.xlsx".data = "A_中学_1".data ∧
    getGroupKey "report.xlsx".data = "report".data ∧
    getGroupKey "_1.xlsx".data = [] :=
  ⟨fun s pre sep ds h1 h2 h3 h4 h5 => getGroupKey_of_suffix s pre sep ds h1 h2 h3 h4 h5,
    fun s pre sep ds h1 h2 h3 h4 h5 => getGroupKey_of_bad_prefix s pre sep ds h1 h2 h3 h4 h5,
    fun s h => getGroupKey_of_no_suffix s h,
    by decide, by decide, by decide, by decide⟩

/-! ### Claims C3 and C6: the batch runner -/

theorem decodeAll_error (fs : List JsFile) (h : ∃ f ∈ fs, f.content = none) :
    decodeAll fs = .error () := by
  induction fs with
  | nil => simp at h
  | cons f rest ih =>
    obtain ⟨f2, hf2, hc⟩ := h
    simp only [decodeAll]
    rcases List.mem_cons.1 hf2 with rfl | hmem
    · rw [hc]
    · cases hfc : f.content with
      | none => rfl
      | some wb =>
        rw [ih ⟨f2, hmem, hc⟩]
        rfl

theorem runGroups_error (fs : List JsFile) (keys : List JStr)
    (h : ∃ k ∈ keys, ∃ f ∈ filesForKey fs k, f.content = none) :
    runGroups fs keys = .error () := by
  induction keys with
  | nil => simp at h
  | cons k rest ih =>
    obtain ⟨k2, hk2, f, hf, hc⟩ := h
    simp only [runGroups]
    rcases List.mem_cons.1 hk2 with rfl | hmem
    · rw [show mergeExcelFilesE (filesForKey fs k2) = .error () from by
        unfold mergeExcelFilesE
        rw [decodeAll_error _ ⟨f, hf, hc⟩]
        rfl]
    · cases hm : mergeExcelFilesE (filesForKey fs k) with
      | error e =>
        cases e
        rfl
      | ok out =>
        rw [ih ⟨k2, hmem, f, hf, hc⟩]
        rfl

theorem mem_dedupAux (l : List JStr) :
    ∀ (acc : List JStr) (k : JStr), k ∈ dedupAux l acc ↔ k ∈ l ∨ k ∈ acc := by
  induction l with
  | nil => intro acc k; simp [dedupAux]
  | cons k2 ks ih =>
    intro acc k
    simp only [dedupAux]
    by_cases hc : acc.contains k2
    · rw [if_pos hc]
      rw [ih]
      have hk2 : k2 ∈ acc := by
        rw [List.contains_eq_any_beq] at hc
        rcases List.any_eq_true.1 hc with ⟨a, ha, he⟩
        rw [show k2 = a from beq_iff_eq.1 he]
        exact ha
      constructor
      · rintro (h | h)
        · exact Or.inl (List.mem_cons_of_mem _ h)
        · exact Or.inr h
      · rintro (h | h)
        · rcases List.mem_cons.1 h with rfl | h2
          · exact Or.inr hk2
          · exact Or.inl h2
        · exact Or.inr h
    · rw [if_neg hc]
      rw [ih]
      constructor
      · rintro (h | h)
        · exact Or.inl (List.mem_cons_of_mem _ h)
        · rcases List.mem_cons.1 h with rfl | h2
          · exact Or.inl (List.mem_cons_self _ _)
          · exact Or.inr h2
      · rintro (h | h)
        · rcases List.mem_cons.1 h with rfl | h2
          · exact Or.inr (List.mem_cons_self _ _)
          · exact Or.inl h2
        · exact Or.inr (List.mem_cons_of_mem _ h)

/-- C3 (amended): once any file of a non-empty batch fails to decode, the
whole merge-all fails: the loop over the batch's groups runs inside a single
try block, so the first group error empties the results and sets the global
error - no sibling group's output survives. -/
theorem C3_batch_aborts (fs : List JsFile) (hne : fs ≠ [])
    (hbad : ∃ f ∈ fs, f.content = none) :
    handleMergeAll fs = BatchOutcome.failure := by
  obtain ⟨f, hf, hc⟩ := hbad
  unfold handleMergeAll
  rw [if_neg (fun e => hne (List.isEmpty_iff.1 e))]
  have hkmem : getGroupKey f.name ∈ groupedKeys fs := by
    unfold groupedKeys
    rw [mem_dedupAux]
    exact Or.inl (List.mem_map_of_mem (fun f2 => getGroupKey f2.name) hf)
  have hfmem : f ∈ filesForKey fs (getGroupKey f.name) :=
    List.mem_filter.2 ⟨hf, by simp⟩
  rw [runGroups_error fs (groupedKeys fs) ⟨getGroupKey f.name, hkmem, f, hfmem, hc⟩]

/-- C3 witness: a concrete one-file batch whose file fails to decode makes
the whole handleMergeAll fail. -/
theorem C3_batch_aborts_witness :
    handleMergeAll [⟨"A_1.xlsx".data, none⟩] = BatchOutcome.failure :=
  C3_batch_aborts [⟨"A_1.xlsx".data, none⟩] (by decide)
    ⟨⟨"A_1.xlsx".data, none⟩, by decide, rfl⟩

/-- C3 counterexample: a batch of two
groups - group A whose single file fails to decode and group B whose single
file decodes fine - ends in the global failure state with no results, so the
decodable sibling group B produced no output, against the claim that sibling
groups are unaffected and partial success is reported. -/
theorem C3_counterexample :
    handleMergeAll [⟨"A_1.xlsx".data, none⟩, ⟨"B_1.xlsx".data, some exWbB⟩] =
        BatchOutcome.failure ∧
      getGroupKey "A_1.xlsx".data ≠ getGroupKey "B_1.xlsx".data ∧
      (∀ results : List MergeResult,
        BatchOutcome.failure ≠ BatchOutcome.success results) := by
  refine ⟨by decide, by decide, fun results => by simp⟩

/-- C6 counterexample: merging with no files does not report any error: the
guard returns before any status is set (no-action), which is not the failure
state, and mergeExcelFiles itself succeeds on an empty file list. -/
theorem C6_counterexample :
    handleMergeAll [] = BatchOutcome.noAction ∧
      BatchOutcome.noAction ≠ BatchOutcome.failure ∧
      mergeExcelFilesE [] = Except.ok (mergeExcelFiles []) := by
  refine ⟨rfl, by simp, rfl⟩

/-- C6 (amended): invoked with no files, handleMergeAll returns immediately
without reporting an error and without running any group (the empty-input
guard silently no-ops), and mergeExcelFiles on an empty list succeeds,
producing a workbook whose governed sheets hold only an empty header row and
no pass-through sheet. -/
theorem C6_empty_input :
    handleMergeAll [] = BatchOutcome.noAction ∧
      mergeExcelFiles [] = ⟨[[]], [[]], none⟩ ∧
      mergeExcelFilesE [] = Except.ok ⟨[[]], [[]], none⟩ := by
  refine ⟨rfl, by decide, by rfl⟩

/-! ### Claim C9: idempotence of the merge on a single file -/

theorem headD_append_of_ne_nil {α : Type} (rs : List α) (h : rs ≠ [])
    (more : List α) (x : α) : (rs ++ more).headD x = rs.headD x := by
  cases rs with
  | nil => exact absurd rfl h
  | cons a as => rfl

theorem goodEntry_addToGroup (idx : Nat) (gs : Groups) (k : JStr) (r : Row)
    (hgs : ∀ p ∈ gs, GoodEntry idx p) (hk : k ≠ [])
    (hr : rowHasContent r = true) (hqr : qValAt idx r = k ∨ qValAt idx r = [])
    (hnew : k ∉ keysOf gs → qValAt idx r = k) :
    ∀ p ∈ addToGroup gs k r, GoodEntry idx p := by
  induction gs with
  | nil =>
    intro p hp
    simp only [addToGroup, List.mem_singleton] at hp
    subst hp
    refine ⟨hk, by simp, ?_, ?_⟩
    · intro r2 hr2
      simp only [List.mem_singleton] at hr2
      subst hr2
      exact ⟨hr, hqr⟩
    · simpa using hnew (by simp [keysOf])
  | cons p2 rest ih =>
    obtain ⟨k2, rs⟩ := p2
    intro p hp
    by_cases hkk : k2 = k
    · subst hkk
      rw [show addToGroup ((k2, rs) :: rest) k2 r = (k2, rs ++ [r]) :: rest from by
        simp [addToGroup]] at hp
      rcases List.mem_cons.1 hp with rfl | hp2
      · obtain ⟨g1, g2, g3, g4⟩ := hgs (k2, rs) (List.mem_cons_self _ _)
        refine ⟨g1, by simp, ?_, ?_⟩
        · intro r2 hr2
          rcases List.mem_append.1 hr2 with h2 | h2
          · exact g3 r2 h2
          · simp only [List.mem_singleton] at h2
            subst h2
            exact ⟨hr, hqr⟩
        · rw [headD_append_of_ne_nil rs g2]
          exact g4
      · exact hgs _ (List.mem_cons_of_mem _ hp2)
    · rw [show addToGroup ((k2, rs) :: rest) k r = (k2, rs) :: addToGroup rest k r from by
        simp [addToGroup, hkk]] at hp
      rcases List.mem_cons.1 hp with rfl | hp2
      · exact hgs _ (List.mem_cons_self _ _)
      · refine ih (fun p3 hp3 => hgs _ (List.mem_cons_of_mem _ hp3)) ?_ p hp2
        intro hnot
        refine hnew ?_
        simp only [keysOf, List.map_cons, List.mem_cons, not_or]
        exact ⟨fun e => hkk e.symm, by simpa [keysOf] using hnot⟩

theorem goodEntry_collectRows (idx : Nat) (rows : List Row) :
    ∀ (cur : JStr) (gs : Groups), (∀ p ∈ gs, GoodEntry idx p) →
      (cur ≠ [] → cur ∈ keysOf gs) →
      ∀ p ∈ collectRows idx rows cur gs, GoodEntry idx p := by
  induction rows with
  | nil => intro cur gs hgs _ p hp; exact hgs p hp
  | cons row rest ih =>
    intro cur gs hgs hcur p hp
    simp only [collectRows] at hp
    by_cases hc : rowHasContent row = false
    · rw [if_pos hc] at hp
      exact ih cur gs hgs hcur p hp
    · rw [if_neg hc] at hp
      set cur2 := if qValAt idx row = [] then cur else qValAt idx row with hcur2
      by_cases h0 : cur2 = []
      · rw [if_pos h0] at hp
        exact ih cur2 gs hgs (fun e => absurd h0 e) p hp
      · rw [if_neg h0] at hp
        have hcontent : rowHasContent row = true := by
          cases h2 : rowHasContent row
          · exact absurd h2 hc
          · rfl
        have hqr : qValAt idx row = cur2 ∨ qValAt idx row = [] := by
          by_cases hq : qValAt idx row = []
          · exact Or.inr hq
          · exact Or.inl (by rw [hcur2, if_neg hq])
        have hnew : cur2 ∉ keysOf gs → qValAt idx row = cur2 := by
          intro hnot
          by_cases hq : qValAt idx row = []
          · exfalso
            rw [hcur2, if_pos hq] at h0 hnot
            exact hnot (hcur h0)
          · rw [hcur2, if_neg hq]
        refine ih cur2 _ (goodEntry_addToGroup idx gs cur2 row hgs h0 hcontent hqr hnew)
          (fun _ => ?_) p hp
        rw [mem_keysOf_addToGroup]
        exact Or.inr rfl

theorem collectRows_block (idx : Nat) (k : JStr) (hk : k ≠ []) (rs : List Row)
    (hrs : ∀ r ∈ rs, rowHasContent r = true ∧
      (qValAt idx r = k ∨ qValAt idx r = [])) :
    ∀ (rest : List Row) (gs : Groups),
      collectRows idx (rs ++ rest) k gs =
        collectRows idx rest k (rs.foldl (fun g r => addToGroup g k r) gs) := by
  induction rs with
  | nil => intro rest gs; rfl
  | cons r rs ih =>
    intro rest gs
    obtain ⟨hr, hq⟩ := hrs r (List.mem_cons_self _ _)
    simp only [List.cons_append, List.append_eq, collectRows]
    rw [if_neg (by simp [hr])]
    have hcur2 : (if qValAt idx r = [] then k else qValAt idx r) = k := by
      rcases hq with h2 | h2
      · by_cases h3 : qValAt idx r = []
        · rw [if_pos h3]
        · rw [if_neg h3, h2]
      · rw [if_pos h2]
    rw [hcur2, if_neg hk]
    rw [ih (fun r2 h2 => hrs r2 (List.mem_cons_of_mem _ h2)) rest (addToGroup gs k r)]
    rfl

theorem addToGroup_last (gs : Groups) (k : JStr) (hnot : k ∉ keysOf gs)
    (acc : List Row) (r : Row) :
    addToGroup (gs ++ [(k, acc)]) k r = gs ++ [(k, acc ++ [r])] := by
  induction gs with
  | nil => simp [addToGroup]
  | cons p rest ih =>
    obtain ⟨k2, rs⟩ := p
    simp only [keysOf, List.map_cons, List.mem_cons, not_or] at hnot
    simp only [List.cons_append, List.append_eq, addToGroup]
    rw [if_neg (fun e => hnot.1 e.symm)]
    rw [ih (by simpa [keysOf] using hnot.2)]

theorem foldl_addToGroup_last (k : JStr) (rs : List Row) :
    ∀ (gs : Groups) (acc : List Row), k ∉ keysOf gs →
      rs.foldl (fun g r => addToGroup g k r) (gs ++ [(k, acc)]) =
        gs ++ [(k, acc ++ rs)] := by
  induction rs with
  | nil => intro gs acc _; simp
  | cons r rs ih =>
    intro gs acc hnot
    simp only [List.foldl_cons]
    rw [addToGroup_last gs k hnot acc r, ih gs (acc ++ [r]) hnot]
    simp

theorem collectRows_flatten (idx : Nat) (B : Groups) :
    (∀ p ∈ B, GoodEntry idx p) → (keysOf B).Nodup →
      ∀ (gs : Groups) (cur : JStr), (∀ k ∈ keysOf B, k ∉ keysOf gs) →
        collectRows idx (B.flatMap (fun p => p.2)) cur gs = gs ++ B := by
  induction B with
  | nil => intro _ _ gs cur _; simp [collectRows]
  | cons p B ih =>
    obtain ⟨k, rs⟩ := p
    intro hgood hnodup gs cur hdisj
    obtain ⟨hk, hrs, hrows, hhead⟩ := hgood (k, rs) (List.mem_cons_self _ _)
    cases rs with
    | nil => exact absurd rfl hrs
    | cons r rs2 =>
      have hr := hrows r (List.mem_cons_self _ _)
      have hqr : qValAt idx r = k := by simpa using hhead
      simp only [List.flatMap_cons, List.cons_append, List.append_eq]
      simp only [collectRows]
      rw [if_neg (by simp [hr.1])]
      rw [show (if qValAt idx r = [] then cur else qValAt idx r) = k from by
        rw [hqr, if_neg hk]]
      rw [if_neg hk]
      have hknot : k ∉ keysOf gs := hdisj k (by simp [keysOf])
      rw [collectRows_block idx k hk rs2
        (fun r2 h2 => hrows r2 (List.mem_cons_of_mem _ h2)) _ _]
      rw [addToGroup_not_mem gs k r hknot]
      rw [foldl_addToGroup_last k rs2 gs [r] hknot]
      simp only [List.singleton_append]
      have hnodup2 : (keysOf B).Nodup := by
        simpa [keysOf] using hnodup.of_cons
      have hgood2 : ∀ p ∈ B, GoodEntry idx p :=
        fun p hp => hgood p (List.mem_cons_of_mem _ hp)
      rw [ih hgood2 hnodup2 (gs ++ [(k, r :: rs2)]) k ?_]
      · simp
      · intro k2 hk2
        rw [keysOf_append]
        simp only [List.mem_append, not_or]
        refine ⟨fun e => hdisj k2 (List.mem_cons_of_mem _ hk2) e, ?_⟩
        simp only [keysOf, List.map_cons, List.map_nil, List.mem_singleton]
        intro e
        subst e
        simp only [keysOf, List.map_cons, List.nodup_cons] at hnodup
        exact hnodup.1 hk2

theorem groupRows_mem (gs : Groups) (k : JStr) (h : k ∈ keysOf gs) :
    (k, groupRows gs k) ∈ gs := by
  induction gs with
  | nil => simp [keysOf] at h
  | cons p rest ih =>
    obtain ⟨k2, rs⟩ := p
    rw [groupRows_cons]
    by_cases hk : k2 = k
    · subst hk
      simp only [if_pos rfl]
      exact List.mem_cons_self _ _
    · rw [if_neg hk]
      simp only [keysOf, List.map_cons, List.mem_cons] at h
      rcases h with rfl | h2
      · exact absurd rfl hk
      · exact List.mem_cons_of_mem _ (ih h2)

theorem groupRows_map_self (L : List JStr) (f : JStr → List Row) :
    ∀ k ∈ L, groupRows (L.map (fun k2 => (k2, f k2))) k = f k := by
  induction L with
  | nil => intro k h; simp at h
  | cons k2 L ih =>
    intro k hk
    simp only [List.map_cons, groupRows_cons]
    by_cases h2 : k2 = k
    · subst h2
      simp
    · rw [if_neg h2]
      rcases List.mem_cons.1 hk with rfl | h3
      · exact absurd rfl h2
      · exact ih k h3

theorem keysOf_map_pair (L : List JStr) (f : JStr → List Row) :
    keysOf (L.map (fun k => (k, f k))) = L := by
  simp [keysOf, List.map_map]
  exact List.map_id L

theorem flatten_map_pair (L : List JStr) (f : JStr → List Row) :
    (L.map (fun k => (k, f k))).flatMap (fun p => p.2) = L.flatMap f := by
  rw [List.flatMap_map]

theorem mergeExcelFiles_single (wb : Workbook) :
    mergeExcelFiles [wb] =
      ⟨koseiHead wb ::
          (sortedKeys (fileKoseiGroups wb)).flatMap
            (fun k => groupRows (fileKoseiGroups wb) k),
        naiyoHead wb ::
          (sortedKeys (fileNaiyoGroups wb)).flatMap
            (fun k => groupRows (fileNaiyoGroups wb) k),
        wb.tempre⟩ := by
  have hg : (runFiles [wb]).koseiGroups = fileKoseiGroups wb := by
    rw [runFiles_koseiGroups]
    rfl
  have hn : (runFiles [wb]).naiyoGroups = fileNaiyoGroups wb := by
    rw [runFiles_naiyoGroups]
    rfl
  have hh : (runFiles [wb]).koseiHeaders = koseiHead wb := by
    rw [runFiles_koseiHeaders]
    rfl
  have hh2 : (runFiles [wb]).naiyoHeaders = naiyoHead wb := by
    rw [runFiles_naiyoHeaders]
    rfl
  have ht : (runFiles [wb]).masterTempre = wb.tempre := by
    rw [runFiles_masterTempre]
    rw [List.findSome?_cons]
    cases h : wb.tempre <;> simp
  simp only [mergeExcelFiles, finalData, hg, hn, hh, hh2, ht]

theorem fileGroups_good (idx : Nat) (d : List Row) :
    ∀ p ∈ fileGroups idx d, GoodEntry idx p :=
  goodEntry_collectRows idx d [] [] (by simp) (fun e => absurd rfl e)

theorem fileGroups_nodup (idx : Nat) (d : List Row) :
    (keysOf (fileGroups idx d)).Nodup :=
  nodup_keysOf_collectRows idx d [] [] (by simp [keysOf])

theorem recollect_sorted (idx : Nat) (G : Groups)
    (hgood : ∀ p ∈ G, GoodEntry idx p) (hnodup : (keysOf G).Nodup) :
    fileGroups idx
        ((sortedKeys G).flatMap (fun k => groupRows G k)) =
      (sortedKeys G).map (fun k => (k, groupRows G k)) := by
  set L := sortedKeys G with hL
  set B := L.map (fun k => (k, groupRows G k)) with hB
  have hLnodup : L.Nodup := sortedKeys_nodup G hnodup
  have hBgood : ∀ p ∈ B, GoodEntry idx p := by
    intro p hp
    rw [hB] at hp
    rcases List.mem_map.1 hp with ⟨k, hk, rfl⟩
    have hkG : k ∈ keysOf G := (mem_sortedKeys G k).1 hk
    exact hgood _ (groupRows_mem G k hkG)
  have hBnodup : (keysOf B).Nodup := by
    rw [hB, keysOf_map_pair]
    exact hLnodup
  have hflat : B.flatMap (fun p => p.2) = L.flatMap (fun k => groupRows G k) := by
    rw [hB, flatten_map_pair]
  unfold fileGroups
  rw [← hflat]
  rw [collectRows_flatten idx B hBgood hBnodup [] [] (by simp [keysOf])]
  simp

theorem mergeExcelFiles_idem_kosei (wb : Workbook) :
    (mergeExcelFiles [toWorkbook (mergeExcelFiles [wb])]).kosei =
      (mergeExcelFiles [wb]).kosei := by
  rw [mergeExcelFiles_single wb, mergeExcelFiles_single]
  set G := fileKoseiGroups wb with hG
  set L := sortedKeys G with hL
  have hgood : ∀ p ∈ G, GoodEntry 4 p := fileGroups_good 4 (koseiRows wb)
  have hnodG : (keysOf G).Nodup := fileGroups_nodup 4 (koseiRows wb)
  have hwb2 : fileKoseiGroups (toWorkbook
      ⟨koseiHead wb :: L.flatMap (fun k => groupRows G k),
        naiyoHead wb :: (sortedKeys (fileNaiyoGroups wb)).flatMap
          (fun k => groupRows (fileNaiyoGroups wb) k),
        wb.tempre⟩) = L.map (fun k => (k, groupRows G k)) := by
    show fileGroups 4 ((koseiHead wb :: L.flatMap (fun k => groupRows G k)).drop 1) = _
    simp only [List.drop_succ_cons, List.drop_zero]
    exact recollect_sorted 4 G hgood hnodG
  simp only [toWorkbook] at hwb2 ⊢
  rw [hwb2]
  have hsorted : List.Sorted naturalLe L := sortedKeys_sorted G
  have hLsort : sortedKeys (L.map (fun k => (k, groupRows G k))) = L := by
    unfold sortedKeys
    rw [keysOf_map_pair]
    exact hsorted.insertionSort_eq
  rw [hLsort]
  congr 1
  refine List.flatMap_congr ?_
  intro k hk
  exact groupRows_map_self L (fun k2 => groupRows G k2) k hk

theorem mergeExcelFiles_idem_naiyo (wb : Workbook) :
    (mergeExcelFiles [toWorkbook (mergeExcelFiles [wb])]).naiyo =
      (mergeExcelFiles [wb]).naiyo := by
  rw [mergeExcelFiles_single wb, mergeExcelFiles_single]
  set G := fileNaiyoGroups wb with hG
  set L := sortedKeys G with hL
  have hgood : ∀ p ∈ G, GoodEntry 0 p := fileGroups_good 0 (naiyoRows wb)
  have hnodG : (keysOf G).Nodup := fileGroups_nodup 0 (naiyoRows wb)
  have hwb2 : fileNaiyoGroups (toWorkbook
      ⟨koseiHead wb :: (sortedKeys (fileKoseiGroups wb)).flatMap
          (fun k => groupRows (fileKoseiGroups wb) k),
        naiyoHead wb :: L.flatMap (fun k => groupRows G k),
        wb.tempre⟩) = L.map (fun k => (k, groupRows G k)) := by
    show fileGroups 0 ((naiyoHead wb :: L.flatMap (fun k => groupRows G k)).drop 1) = _
    simp only [List.drop_succ_cons, List.drop_zero]
    exact recollect_sorted 0 G hgood hnodG
  simp only [toWorkbook] at hwb2 ⊢
  rw [hwb2]
  have hsorted : List.Sorted naturalLe L := sortedKeys_sorted G
  have hLsort : sortedKeys (L.map (fun k => (k, groupRows G k))) = L := by
    unfold sortedKeys
    rw [keysOf_map_pair]
    exact hsorted.insertionSort_eq
  rw [hLsort]
  congr 1
  refine List.flatMap_congr ?_
  intro k hk
  exact groupRows_map_self L (fun k2 => groupRows G k2) k hk

theorem mergeExcelFiles_idem_tempre (wb : Workbook) :
    (mergeExcelFiles [toWorkbook (mergeExcelFiles [wb])]).tempre =
      (mergeExcelFiles [wb]).tempre := by
  rw [mergeExcelFiles_single wb, mergeExcelFiles_single]
  rfl

/-- C9: merging a single-file group is the same as re-sorting that file's
own blocks by the natural comparator (the header, then the file's own
collected blocks in sorted identifier order), and feeding the produced
single-file output back into the merge reproduces it exactly, row for row. -/
theorem C9_single_file_idempotent :
    (∀ wb : Workbook,
      mergeExcelFiles [wb] =
        ⟨koseiHead wb ::
            (sortedKeys (fileKoseiGroups wb)).flatMap
              (fun k => groupRows (fileKoseiGroups wb) k),
          naiyoHead wb ::
            (sortedKeys (fileNaiyoGroups wb)).flatMap
              (fun k => groupRows (fileNaiyoGroups wb) k),
          wb.tempre⟩) ∧
      ∀ wb : Workbook,
        mergeExcelFiles [toWorkbook (mergeExcelFiles [wb])] = mergeExcelFiles [wb] := by
  refine ⟨mergeExcelFiles_single, fun wb => ?_⟩
  apply MergedOut.ext
  · exact mergeExcelFiles_idem_kosei wb
  · exact mergeExcelFiles_idem_naiyo wb
  · exact mergeExcelFiles_idem_tempre wb

end MergeExcel
